import Mathlib

/-!
Verification development for the SocialRobotics repository.

The repository orchestrates a single conversational turn of a Furhat social
robot: a controller model produces a turn plan, a clause segmenter turns
streamed model output into speakable clauses, a confidence resolver maps a
hint plus a word count to a confidence tier, and a turn orchestrator either
answers directly or runs a visible-thinking relay concurrently with an
answer relay, ordered by a one-shot completion barrier.

Python strings are modelled as `List Char`.  Wall-clock times are modelled
as natural numbers of milliseconds.  All definitions are translated from the
Python sources (`src/main.py`, `src/plan/orchestrator.py`,
`src/plan/behavior_generator.py`); comments on each definition name the
Python function it embeds.
-/

namespace Robo

/-! ## Python string primitives -/

/-- Characters treated as whitespace by Python `str.strip()` / `str.split()`
(ASCII model of Python's whitespace set). -/
def pySpace (c : Char) : Bool :=
  c = ' ' || c = '\t' || c = '\n' || c = '\r' || c = '\x0b' || c = '\x0c'

/-- Model of Python `str.strip(chars)`: drop characters satisfying `p` from
both ends of the string. -/
def stripAll (p : Char → Bool) (l : List Char) : List Char :=
  ((l.dropWhile p).reverse.dropWhile p).reverse

/-- Model of Python `str.strip()` (no arguments): strip whitespace. -/
def pyStrip (l : List Char) : List Char := stripAll pySpace l

/-- Model of Python `str.lower()` (ASCII model). -/
def pyLower (l : List Char) : List Char := l.map Char.toLower

/-- Number of maximal non-whitespace runs: model of `len(s.split())`. -/
def wordCountAux : List Char → Bool → Nat
  | [], _ => 0
  | c :: rest, inWord =>
    if pySpace c then wordCountAux rest false
    else (if inWord then 0 else 1) + wordCountAux rest true

/-- Model of Python `len(s.split())`. -/
def wordCount (l : List Char) : Nat := wordCountAux l false

/-! ## Clause segmenter (`ChatGPTSentenceStreamer` in `src/main.py`) -/

/-- Sentence-terminal characters scanned by `_pop_ready_clauses`
(`char in ".?!"`). -/
def isTerminalPunct (c : Char) : Bool :=
  c = '.' || c = '?' || c = '!'

/-- Scanning loop of `ChatGPTSentenceStreamer._pop_ready_clauses`: `acc`
holds the characters seen since the last terminal character (the slice
`text[start:idx]` of the Python code).  On a terminal character the
accumulated span plus the terminal character is stripped and, if non-empty,
appended to the clause list; the characters after the last terminal
character are returned as the remainder. -/
def popAux : List Char → List Char → List (List Char) × List Char
  | [], acc => ([], acc)
  | c :: rest, acc =>
    if isTerminalPunct c then
      let clause := pyStrip (acc ++ [c])
      let res := popAux rest []
      (if clause.isEmpty then res.1 else clause :: res.1, res.2)
    else
      popAux rest (acc ++ [c])

/-- Model of `ChatGPTSentenceStreamer._pop_ready_clauses`. -/
def pop_ready_clauses (text : List Char) : List (List Char) × List Char :=
  popAux text []

/-- Loop body of `ChatGPTSentenceStreamer._generate_clauses`: for each token
append it to the buffer, set `self.word_count = len(buffer.split())`, pop the
ready clauses, and keep the remainder as the new buffer; on stream end flush
the stripped buffer when non-empty.  Returns the emitted clauses together
with the final value of `self.word_count`. -/
def generateAux : List (List Char) → List Char → Nat → List (List Char) × Nat
  | [], buffer, wc =>
    (if (pyStrip buffer).isEmpty then [] else [pyStrip buffer], wc)
  | t :: ts, buffer, _ =>
    let buf := buffer ++ t
    let wc1 := wordCount buf
    let res := pop_ready_clauses buf
    let rest := generateAux ts res.2 wc1
    (res.1 ++ rest.1, rest.2)

/-- Model of `ChatGPTSentenceStreamer._generate_clauses` run on a finite
token sequence: first component is the emitted clause sequence, second is
the final value of `self.word_count`. -/
def generate_clauses (tokens : List (List Char)) : List (List Char) × Nat :=
  generateAux tokens [] 0

/-! ## Confidence resolver (`BehaviorGenerator` in
`src/plan/behavior_generator.py`) -/

/-- Model of the dict lookup `BehaviorGenerator.CONFIDENCE_BEHAVIORS.get`:
maps a tier key to its (verbal prefix, base gesture, gesture expression,
LED colour) tuple, `none` when the key is absent. -/
def confBehaviorFull (k : List Char) :
    Option (List Char × List Char × List Char × List Char) :=
  if k = "low".data then
    some ("I'm not entirely sure, but".data, "slight head shake".data,
      "Oh".data, "yellow".data)
  else if k = "medium".data then
    some ("Let me think".data, "look straight".data, "Thoughtful".data,
      "blue".data)
  else if k = "high".data then
    some ("I'm confident that".data, "nod head".data, "BigSmile".data,
      "green".data)
  else none

/-- Model of `BehaviorGenerator._get_legacy_behavior`: project the full
four-field entry to its first two fields, with the Python `.get` default
used when the key is absent. -/
def legacy_behavior (c : List Char) : List Char × List Char :=
  match confBehaviorFull c with
  | some (p, g, _, _) => (p, g)
  | none => ("Let me think".data, "look straight".data)

/-- Model of `BehaviorGenerator.get_confidence_behavior`: unknown keys fall
back to `"medium"` before the legacy projection. -/
def get_confidence_behavior (c : List Char) : List Char × List Char :=
  legacy_behavior (if (confBehaviorFull c).isSome then c else "medium".data)

/-- Model of `BehaviorGenerator._estimate_confidence_from_words` (identical
to `estimate_confidence_from_words` in `src/main.py`). -/
def estimate_confidence_from_words (wc : Nat) : List Char :=
  if wc < 25 then "low".data
  else if wc < 60 then "medium".data
  else "high".data

/-- Model of `BehaviorGenerator.resolve_confidence` (identical in logic to
`resolve_confidence` in `src/main.py`): a present, truthy hint whose
stripped lowercase form is a known tier wins; otherwise the word-count
heuristic applies.  Python truthiness of the hint string is modelled by the
`isEmpty` test. -/
def resolve_confidence (hint : Option (List Char)) (wc : Nat) : List Char :=
  match hint with
  | none => estimate_confidence_from_words wc
  | some h =>
    if h.isEmpty then estimate_confidence_from_words wc
    else
      let key := pyLower (pyStrip h)
      if (confBehaviorFull key).isSome then key
      else estimate_confidence_from_words wc

/-- Definition following the words of the claim about the confidence
resolver: a present hint that matches a known tier is returned verbatim,
otherwise the word-count thresholds apply.  Kept separate from
`resolve_confidence` (which is translated from the source) so the two can
be compared. -/
def resolve_confidence_claimed (hint : Option (List Char)) (wc : Nat) :
    List Char :=
  match hint with
  | none => estimate_confidence_from_words wc
  | some h =>
    if (confBehaviorFull h).isSome then h
    else estimate_confidence_from_words wc

/-! ## DirectAnswer path (`Orchestrator._respond_directly` in
`src/plan/orchestrator.py`) -/

/-- Output events visible on the DirectAnswer path: console lines, speak
calls sent to the Furhat client, and (never produced on this path) thinking
cues. -/
inductive DirectEv where
  | console (line : List Char)
  | speakCall (text : List Char)
  | thinkingCue (text : List Char)
deriving DecidableEq

/-- True exactly on thinking-cue output events. -/
def isThinkingEv : DirectEv → Bool
  | .thinkingCue _ => true
  | _ => false

/-- Apology sentence substituted by `Orchestrator._respond_directly` when
the plan's answer field is missing or blank. -/
def APOLOGY : List Char :=
  "I'm sorry, I can't provide an answer at the moment.".data

/-- Result of the DirectAnswer path: resolved confidence, gesture
description, the combined spoken text, and the ordered output events. -/
structure DirectResult where
  confidence : List Char
  gesture : List Char
  spoken : List Char
  outputs : List DirectEv

/-- Model of `Orchestrator._respond_directly`.  `answerField` is
`self.decision.get("answer")` (`none` when the key is missing), `hint` is
the plan's confidence hint, `hasClient` tells whether `self.furhat_client`
is set.  The Python `or ""` collapses a missing answer to the empty string
before stripping; the confidence test is the exact dict-membership test
`confidence_hint in CONFIDENCE_BEHAVIORS` with default `"medium"`. -/
def respond_directly (answerField : Option (List Char))
    (hint : Option (List Char)) (hasClient : Bool) : DirectResult :=
  let a0 := pyStrip (answerField.getD [])
  let answer := if a0.isEmpty then APOLOGY else a0
  let confidence :=
    match hint with
    | some h => if (confBehaviorFull h).isSome then h else "medium".data
    | none => "medium".data
  let pg := get_confidence_behavior confidence
  let full := pyStrip (pg.1 ++ ' ' :: answer)
  { confidence := confidence
    gesture := pg.2
    spoken := full
    outputs :=
      [DirectEv.console ("Robot directly responds (confidence=".data
          ++ confidence ++ ", gesture=".data ++ pg.2 ++ ")".data),
        DirectEv.console ("Robot: ".data ++ full)]
      ++ (if hasClient then [DirectEv.speakCall full] else []) }

/-- Speak-call texts issued by a DirectAnswer run (the actuation calls). -/
def speakTexts (r : DirectResult) : List (List Char) :=
  r.outputs.filterMap fun e =>
    match e with
    | .speakCall t => some t
    | _ => none

/-! ## Decision service parsing (`ControllerModel._parse_json` in
`src/main.py`)

Python's `json.loads` is modelled by a recursive-descent parser over
`List Char` implementing the JSON grammar (values, arrays, objects, strings
with escapes, numbers kept as their lexemes so no floating point enters the
model).  Recursion is bounded by a fuel argument that is strictly larger
than the number of parser steps any input of the given length can take, so
the fuel never runs out on real inputs. -/

/-- JSON values.  Number literals keep their lexeme. -/
inductive Json where
  | null
  | bool (b : Bool)
  | num (lexeme : List Char)
  | str (cs : List Char)
  | arr (xs : List Json)
  | obj (kvs : List (List Char × Json))

/-- True exactly on JSON objects. -/
def Json.isObj : Json → Bool
  | .obj _ => true
  | _ => false

/-- JSON insignificant whitespace. -/
def jsonWsChar (c : Char) : Bool :=
  c = ' ' || c = '\t' || c = '\n' || c = '\r'

/-- Skip JSON whitespace. -/
def skipWs (t : List Char) : List Char := t.dropWhile jsonWsChar

/-- Value of a hex digit. -/
def hexVal (c : Char) : Option Nat :=
  if '0' ≤ c ∧ c ≤ '9' then some (c.toNat - '0'.toNat)
  else if 'a' ≤ c ∧ c ≤ 'f' then some (c.toNat - 'a'.toNat + 10)
  else if 'A' ≤ c ∧ c ≤ 'F' then some (c.toNat - 'A'.toNat + 10)
  else none

/-- Single-character JSON string escapes. -/
def unescapeChar (c : Char) : Option Char :=
  if c = '"' then some '"'
  else if c = '\\' then some '\\'
  else if c = '/' then some '/'
  else if c = 'b' then some (Char.ofNat 8)
  else if c = 'f' then some (Char.ofNat 12)
  else if c = 'n' then some '\n'
  else if c = 'r' then some '\r'
  else if c = 't' then some '\t'
  else none

/-- Parse the body of a JSON string after the opening quote, returning the
decoded content and the remainder after the closing quote.  Raw control
characters are rejected, escapes are decoded, `\uXXXX` becomes the
corresponding character. -/
def parseStringBody : List Char → Option (List Char × List Char)
  | [] => none
  | '"' :: r => some ([], r)
  | '\\' :: 'u' :: h1 :: h2 :: h3 :: h4 :: r =>
    (match hexVal h1, hexVal h2, hexVal h3, hexVal h4 with
     | some a, some b, some c, some d =>
       (parseStringBody r).map fun p =>
         (Char.ofNat (((a * 16 + b) * 16 + c) * 16 + d) :: p.1, p.2)
     | _, _, _, _ => none)
  | '\\' :: e :: r =>
    (match unescapeChar e with
     | some c => (parseStringBody r).map fun p => (c :: p.1, p.2)
     | none => none)
  | c :: r =>
    if c.toNat < 32 then none
    else (parseStringBody r).map fun p => (c :: p.1, p.2)

/-- Longest digit run at the front. -/
def digitSpan (t : List Char) : List Char × List Char :=
  (t.takeWhile Char.isDigit, t.dropWhile Char.isDigit)

/-- Optional fraction part of a JSON number. -/
def parseFrac (t : List Char) : Option (List Char × List Char) :=
  match t with
  | '.' :: r =>
    let ds := digitSpan r
    if ds.1.isEmpty then none else some ('.' :: ds.1, ds.2)
  | _ => some ([], t)

/-- Optional exponent part of a JSON number. -/
def parseExp (t : List Char) : Option (List Char × List Char) :=
  match t with
  | e :: r =>
    if e = 'e' ∨ e = 'E' then
      let sr :=
        match r with
        | '+' :: rr => (['+'], rr)
        | '-' :: rr => (['-'], rr)
        | _ => (([] : List Char), r)
      let ds := digitSpan sr.2
      if ds.1.isEmpty then none else some (e :: sr.1 ++ ds.1, ds.2)
    else some ([], t)
  | [] => some ([], [])

/-- Integer part of a JSON number after an optional minus sign: a single
zero or a nonzero digit followed by digits. -/
def parseIntPart (t : List Char) : Option (List Char × List Char) :=
  match t with
  | '0' :: r => some (['0'], r)
  | c :: r =>
    if c.isDigit then
      let ds := digitSpan r
      some (c :: ds.1, ds.2)
    else none
  | [] => none

/-- Parse a JSON number, keeping its lexeme. -/
def parseNumber (t : List Char) : Option (Json × List Char) :=
  let nr :=
    match t with
    | '-' :: r => ((['-'] : List Char), r)
    | _ => (([] : List Char), t)
  match parseIntPart nr.2 with
  | none => none
  | some (ip, r1) =>
    match parseFrac r1 with
    | none => none
    | some (fp, r2) =>
      match parseExp r2 with
      | none => none
      | some (ep, r3) => some (.num (nr.1 ++ ip ++ fp ++ ep), r3)

/-- Mode of the recursive-descent parser: a single value, the elements of a
non-empty array, or the members of a non-empty object. -/
inductive PMode where
  | value
  | elems
  | members

/-- Intermediate parser results for the three modes. -/
inductive PRes where
  | v (j : Json)
  | vs (js : List Json)
  | ms (kvs : List (List Char × Json))

/-- Recursive-descent JSON parser, fuel-bounded (the fuel strictly exceeds
the number of recursive steps possible on an input of the given length). -/
def parseF : Nat → PMode → List Char → Option (PRes × List Char)
  | 0, _, _ => none
  | Nat.succ f, PMode.value, t =>
    (match skipWs t with
     | 'n' :: 'u' :: 'l' :: 'l' :: r => some (.v .null, r)
     | 't' :: 'r' :: 'u' :: 'e' :: r => some (.v (.bool true), r)
     | 'f' :: 'a' :: 'l' :: 's' :: 'e' :: r => some (.v (.bool false), r)
     | '"' :: r => (parseStringBody r).map fun p => (.v (.str p.1), p.2)
     | '[' :: r =>
       (match skipWs r with
        | ']' :: r2 => some (.v (.arr []), r2)
        | _ =>
          match parseF f PMode.elems r with
          | some (.vs xs, r2) => some (.v (.arr xs), r2)
          | _ => none)
     | '{' :: r =>
       (match skipWs r with
        | '}' :: r2 => some (.v (.obj []), r2)
        | _ =>
          match parseF f PMode.members r with
          | some (.ms kvs, r2) => some (.v (.obj kvs), r2)
          | _ => none)
     | t2 => (parseNumber t2).map fun p => (.v p.1, p.2))
  | Nat.succ f, PMode.elems, t =>
    (match parseF f PMode.value t with
     | some (.v x, r) =>
       (match skipWs r with
        | ',' :: r2 =>
          (match parseF f PMode.elems r2 with
           | some (.vs xs, r3) => some (.vs (x :: xs), r3)
           | _ => none)
        | ']' :: r2 => some (.vs [x], r2)
        | _ => none)
     | _ => none)
  | Nat.succ f, PMode.members, t =>
    (match skipWs t with
     | '"' :: r =>
       (match parseStringBody r with
        | some (k, r1) =>
          (match skipWs r1 with
           | ':' :: r2 =>
             (match parseF f PMode.value r2 with
              | some (.v x, r3) =>
                (match skipWs r3 with
                 | ',' :: r4 =>
                   (match parseF f PMode.members r4 with
                    | some (.ms kvs, r5) => some (.ms ((k, x) :: kvs), r5)
                    | _ => none)
                 | '}' :: r4 => some (.ms [(k, x)], r4)
                 | _ => none)
              | _ => none)
           | _ => none)
        | none => none)
     | _ => none)

/-- Model of Python `json.loads`: parse one value and require only
whitespace to remain. -/
def jsonLoads (t : List Char) : Option Json :=
  match parseF (2 * t.length + 8) PMode.value t with
  | some (.v j, r) => if skipWs r = [] then some j else none
  | _ => none

/-- The backtick character, by code point. -/
def isBacktick (c : Char) : Bool := c.toNat = 96

/-- Whether the candidate starts with three backticks
(`candidate.startswith` on the triple-backtick fence marker). -/
def startsWithFence (t : List Char) : Bool :=
  match t with
  | a :: b :: c :: _ => isBacktick a && isBacktick b && isBacktick c
  | _ => false

/-- Fence-stripping pipeline of `ControllerModel._parse_json`: strip
whitespace; when the text starts with a triple-backtick fence, strip all
backticks from both ends and drop a leading case-insensitive `json`
language tag. -/
def stripFence (text : List Char) : List Char :=
  let candidate := pyStrip text
  if startsWithFence candidate then
    let c2 := stripAll isBacktick candidate
    if "json".data.isPrefixOf (pyLower c2) then c2.drop 4 else c2
  else candidate

/-- Model of `ControllerModel._parse_json`: `none` is the
`DecisionParseError` (`RuntimeError`) branch, `some` the parsed value. -/
def parse_json (text : List Char) : Option Json :=
  jsonLoads (stripFence text)

/-- Whether an optional parse result is a JSON object. -/
def optIsObj (o : Option Json) : Bool :=
  match o with
  | some v => v.isObj
  | none => false

/-! ## Thinking relay, timed model (`Orchestrator._relay_thinking` in
`src/plan/orchestrator.py`)

Times are naturals (milliseconds of `loop.time()`).  The stream of cues is
an oracle list: each item carries its arrival time (the moment the
`async for` obtains it from the network bridge) and the time the
`emit_line` call takes after printing (its Furhat actuation awaits); a
stream item may instead be a captured failure, which the channel re-raises
at the point it is read.  The end of the stream also has an arrival time
(the moment the terminal marker is read).  Given these oracles the relay is
deterministic, so it is modelled as a function. -/

/-- Configuration constants of `src/plan/orchestrator.py`, with seconds
converted to milliseconds. -/
def MAX_THINKING_CUES : Nat := 12

/-- `THINKING_DURATION_SECONDS = 10.0`, in milliseconds. -/
def THINKING_DURATION_MS : Nat := 10000

/-- `THINKING_PAUSE_SECONDS = 0.5`, in milliseconds. -/
def THINKING_PAUSE_MS : Nat := 500

/-- `THINKING_FALLBACK_LINES` of `src/plan/orchestrator.py`. -/
def THINKING_FALLBACK_LINES : List (List Char) :=
  ["Let me think this through.".data,
   "I'm weighing a couple of options.".data,
   "Checking what I already know.".data,
   "Almost ready with an answer.".data,
   "Considering how this fits your question.".data]

/-- Model of `_is_meaningful_thinking_cue`: strip whitespace, then strip
terminal punctuation and the ellipsis, and test non-emptiness. -/
def isMeaningfulThinkingCue (t : List Char) : Bool :=
  !(stripAll (fun c => c = '.' || c = '!' || c = '?' || c = '…')
      (stripAll pySpace t)).isEmpty

/-- One oracle item of the thinking stream. -/
inductive StreamItem where
  | cue (arrival : Nat) (text : List Char) (emitDelay : Nat)
  | err (arrival : Nat)

/-- Result of one thinking-relay run: emissions as (time of the cue print,
text), the time the relay reaches its `finally` block, the final value of
`emitted`, and whether it is exiting with a propagating failure. -/
structure RelayRun where
  emits : List (Nat × List Char)
  exitTime : Nat
  emitted : Nat
  failed : Bool

/-- The fallback `while` loop of `_relay_thinking`: emit cycled filler
lines while the deadline and cue cap allow, pausing between cues.
`fbDelay i` is the time the `emit_line` of the `i`-th filler takes after
its print. -/
def fallbackLoop (deadline : Nat) (fbDelay : Nat → Nat)
    (now emitted fbIdx : Nat) : RelayRun :=
  if h : now < deadline ∧ emitted < MAX_THINKING_CUES then
    let filler :=
      THINKING_FALLBACK_LINES.getD (fbIdx % THINKING_FALLBACK_LINES.length) []
    let t1 := now + fbDelay fbIdx
    if t1 ≥ deadline ∨ emitted + 1 ≥ MAX_THINKING_CUES then
      ⟨[(now, filler)], t1, emitted + 1, false⟩
    else
      let r := fallbackLoop deadline fbDelay (t1 + THINKING_PAUSE_MS)
        (emitted + 1) (fbIdx + 1)
      ⟨(now, filler) :: r.emits, r.exitTime, r.emitted, r.failed⟩
  else
    ⟨[], now, emitted, false⟩
termination_by MAX_THINKING_CUES - emitted
decreasing_by
  omega

/-- The `async for` loop of `_relay_thinking`: obtain the next cue (waiting
until its arrival), break when the deadline or cap is hit, skip
non-meaningful cues, otherwise print the cue (recorded at the time of the
print), re-check, and pause.  When the stream ends the fallback loop runs
from the stream-end arrival time; a captured stream failure re-raises at
the point it is read. -/
def relayLoop (deadline : Nat) (fbDelay : Nat → Nat) (endAt : Nat) :
    List StreamItem → Nat → Nat → RelayRun
  | [], now, emitted => fallbackLoop deadline fbDelay (max now endAt) emitted 0
  | .err a :: _, now, emitted => ⟨[], max now a, emitted, true⟩
  | .cue a text d :: rest, now, emitted =>
    let t := max now a
    if t ≥ deadline ∨ emitted ≥ MAX_THINKING_CUES then
      ⟨[], t, emitted, false⟩
    else if isMeaningfulThinkingCue text = false then
      relayLoop deadline fbDelay endAt rest t emitted
    else
      let t1 := t + d
      if t1 ≥ deadline ∨ emitted + 1 ≥ MAX_THINKING_CUES then
        ⟨[(t, text)], t1, emitted + 1, false⟩
      else
        let r := relayLoop deadline fbDelay endAt rest
          (t1 + THINKING_PAUSE_MS) (emitted + 1)
        ⟨(t, text) :: r.emits, r.exitTime, r.emitted, r.failed⟩

/-- Model of `Orchestrator._relay_thinking` started at `startTime`: the
deadline is `startTime + THINKING_DURATION_MS`, `emitted` starts at 0. -/
def relay_thinking (startTime : Nat) (items : List StreamItem) (endAt : Nat)
    (fbDelay : Nat → Nat) : RelayRun :=
  relayLoop (startTime + THINKING_DURATION_MS) fbDelay endAt items startTime 0

/-- Actions of a thinking-relay run: cue emissions and the completion
barrier signal performed by the `finally` block. -/
inductive RelayAct where
  | emitCue (t : Nat) (text : List Char)
  | signalBarrier (t : Nat)

/-- True exactly on barrier-signal actions. -/
def isBarrierAct : RelayAct → Bool
  | .signalBarrier _ => true
  | _ => false

/-- Full action trace of one thinking-relay run: the scoped `finally`
handler runs on every exit path — normal exit, break, and propagating
failure alike — and signals `thinking_window_done` at the moment the relay
exits. -/
def relay_trace (startTime : Nat) (items : List StreamItem) (endAt : Nat)
    (fbDelay : Nat → Nat) : List RelayAct :=
  let r := relay_thinking startTime items endAt fbDelay
  (r.emits.map fun p => RelayAct.emitCue p.1 p.2)
    ++ [RelayAct.signalBarrier r.exitTime]

/-! ## Two-relay interleaving (`Orchestrator.run`, `_relay_thinking`,
`_relay_answer` in `src/plan/orchestrator.py`)

For the cross-task ordering claim the two relays are modelled as a
small-step transition system over a shared configuration holding the
one-shot `thinking_window_done` flag and the trace of output events (most
recent first).  The thinking relay emits thinking cues and then signals the
barrier in its `finally`; the nondeterministic break step covers deadline,
cap, stream end and failure, so every real schedule is a trace of this
system.  The answer relay fetches its first clause at any time — in
particular before the barrier — but its announce step is guarded by the
barrier flag, translating `await self.thinking_window_done.wait()`. -/

/-- Observable output events of one ThinkingAndAnswering turn. -/
inductive OrchEv where
  | thinkOut (text : List Char)
  | barrier
  | announce (confidence : List Char) (gesture : List Char)
  | answerOut (text : List Char)
  | answerSend (text : List Char)
  | gestureOut (g : List Char)

/-- Events printed or sent by the answer relay. -/
def isAnswerEv : OrchEv → Bool
  | .announce _ _ => true
  | .answerOut _ => true
  | .answerSend _ => true
  | .gestureOut _ => true
  | _ => false

/-- Control state of the thinking relay task. -/
inductive ThinkSt where
  | running (cues : List (List Char))
  | finalize
  | exited

/-- Control state of the answer relay task: fetching before the first
clause has arrived, waiting on the barrier with the first clause in hand,
streaming the remaining clauses after the announce, and finished. -/
inductive AnsSt where
  | fetching (cs : List (List Char))
  | waiting (c : List Char) (rest : List (List Char))
  | streamingTail (pfx gest : List Char) (collected rest : List (List Char))
  | finished

/-- Shared configuration of one ThinkingAndAnswering turn. -/
structure OrchConf where
  tk : ThinkSt
  an : AnsSt
  done : Bool
  trace : List OrchEv

/-- Full clause print of `_relay_answer`:
`f"{prefix} {clause}".strip() if prefix else clause`. -/
def fullClause (pfx clause : List Char) : List Char :=
  if pfx.isEmpty then clause else pyStrip (pfx ++ ' ' :: clause)

/-- The single final actuation text of `_relay_answer`:
the collected clauses joined by spaces, prefixed when a prefix is set. -/
def fullAnswer (pfx : List Char) (parts : List (List Char)) : List Char :=
  if pfx.isEmpty then List.intercalate [' '] parts
  else pyStrip (pfx ++ ' ' :: List.intercalate [' '] parts)

/-- Interleaved small-step relation; the scheduler picks any enabled step
of either task.  `hint` is the plan's confidence hint and `wc` the
segmenter's word count observed at the first answer clause. -/
inductive OrchStep (hint : Option (List Char)) (wc : Nat) :
    OrchConf → OrchConf → Prop
  | thinkEmit (c : List Char) (cs : List (List Char)) (an done trace) :
      OrchStep hint wc
        ⟨.running (c :: cs), an, done, trace⟩
        ⟨.running cs, an, done, .thinkOut c :: trace⟩
  | thinkSkip (c : List Char) (cs : List (List Char)) (an done trace) :
      OrchStep hint wc
        ⟨.running (c :: cs), an, done, trace⟩
        ⟨.running cs, an, done, trace⟩
  | thinkFiller (f : List Char) (cs : List (List Char)) (an done trace)
      (hf : f ∈ THINKING_FALLBACK_LINES) :
      OrchStep hint wc
        ⟨.running cs, an, done, trace⟩
        ⟨.running cs, an, done, .thinkOut f :: trace⟩
  | thinkBreak (cs : List (List Char)) (an done trace) :
      OrchStep hint wc
        ⟨.running cs, an, done, trace⟩
        ⟨.finalize, an, done, trace⟩
  | thinkSignal (an done trace) :
      OrchStep hint wc
        ⟨.finalize, an, done, trace⟩
        ⟨.exited, an, true, .barrier :: trace⟩
  | ansFirstArrive (c : List Char) (cs : List (List Char)) (tk done trace) :
      OrchStep hint wc
        ⟨tk, .fetching (c :: cs), done, trace⟩
        ⟨tk, .waiting c cs, done, trace⟩
  | ansZeroClauses (tk done trace) :
      OrchStep hint wc
        ⟨tk, .fetching [], done, trace⟩
        ⟨tk, .finished, done, trace⟩
  | ansAnnounce (c : List Char) (cs : List (List Char)) (tk trace) :
      OrchStep hint wc
        ⟨tk, .waiting c cs, true, trace⟩
        ⟨tk, .streamingTail (get_confidence_behavior
            (resolve_confidence hint wc)).1
            (get_confidence_behavior (resolve_confidence hint wc)).2 [c] cs,
          true,
          .answerOut (fullClause (get_confidence_behavior
              (resolve_confidence hint wc)).1 c)
            :: .announce (resolve_confidence hint wc)
              (get_confidence_behavior (resolve_confidence hint wc)).2
            :: trace⟩
  | ansTailEmit (pfx gest c : List Char) (col cs : List (List Char))
      (tk done trace) :
      OrchStep hint wc
        ⟨tk, .streamingTail pfx gest col (c :: cs), done, trace⟩
        ⟨tk, .streamingTail pfx gest (col ++ [c]) cs, done,
          .answerOut (fullClause pfx c) :: trace⟩
  | ansFinish (pfx gest : List Char) (col : List (List Char))
      (tk done trace) :
      OrchStep hint wc
        ⟨tk, .streamingTail pfx gest col [], done, trace⟩
        ⟨tk, .finished, done,
          (if gest.isEmpty then [] else [OrchEv.gestureOut gest])
            ++ .answerSend (fullAnswer pfx col) :: trace⟩

/-- Initial configuration of one ThinkingAndAnswering turn:
`thinking_window_done` is cleared by `run` before the tasks start. -/
def orchInit (tcues acues : List (List Char)) : OrchConf :=
  ⟨.running tcues, .fetching acues, false, []⟩

/-- Reachability under the interleaved step relation. -/
def OrchReach (hint : Option (List Char)) (wc : Nat) :
    OrchConf → OrchConf → Prop :=
  Relation.ReflTransGen (OrchStep hint wc)

/-- Trace property: every answer-relay event is preceded (that is, followed
in the most-recent-first trace) by a barrier signal. -/
def answerAfterBarrier (tr : List OrchEv) : Prop :=
  ∀ l1 e l2, tr = l1 ++ e :: l2 → isAnswerEv e = true → OrchEv.barrier ∈ l2

/-- Whether the answer relay has passed its barrier wait. -/
def ansStarted : AnsSt → Bool
  | .streamingTail .. => true
  | _ => false

/-- Inductive invariant of the interleaved system. -/
def OrchInv (c : OrchConf) : Prop :=
  (c.done = true → OrchEv.barrier ∈ c.trace)
  ∧ (ansStarted c.an = true → c.done = true)
  ∧ answerAfterBarrier c.trace

/-! # Theorems -/

/-! ## String helper lemmas -/

theorem filter_not_dropWhile (p : Char → Bool) (l : List Char) :
    (l.dropWhile p).filter (fun c => !p c) = l.filter (fun c => !p c) := by
  induction l with
  | nil => rfl
  | cons c rest ih =>
    by_cases h : p c
    · simpa [List.dropWhile_cons, h, List.filter_cons] using ih
    · simp [List.dropWhile_cons, h, List.filter_cons]

theorem filter_not_stripAll (p : Char → Bool) (l : List Char) :
    (stripAll p l).filter (fun c => !p c) = l.filter (fun c => !p c) := by
  unfold stripAll
  rw [List.filter_reverse, filter_not_dropWhile, List.filter_reverse,
    List.reverse_reverse, filter_not_dropWhile]

theorem filter_not_of_stripAll_nil (p : Char → Bool) (l : List Char)
    (h : stripAll p l = []) : l.filter (fun c => !p c) = [] := by
  rw [← filter_not_stripAll p l, h]; rfl

theorem dropWhile_head_not (p : Char → Bool) (l : List Char) :
    ∀ c, (l.dropWhile p).head? = some c → p c = false := by
  induction l with
  | nil => simp
  | cons a rest ih =>
    intro c h
    by_cases ha : p a
    · rw [List.dropWhile_cons_of_pos ha] at h
      exact ih c h
    · rw [List.dropWhile_cons_of_neg ha] at h
      simp only [List.head?_cons, Option.some.injEq] at h
      subst h
      simpa using ha

theorem dropWhile_idem (p : Char → Bool) (l : List Char) :
    (l.dropWhile p).dropWhile p = l.dropWhile p := by
  cases hd : l.dropWhile p with
  | nil => rfl
  | cons c rest =>
    have hc : p c = false := by
      apply dropWhile_head_not p l
      rw [hd]; rfl
    rw [List.dropWhile_cons_of_neg (by simp [hc])]

theorem isPrefix_head_eq {l r : List Char} (h : l <+: r) (hne : l ≠ []) :
    r.head? = l.head? := by
  obtain ⟨t, rfl⟩ := h
  cases l with
  | nil => exact absurd rfl hne
  | cons a l' => rfl

theorem rstrip_isPrefix (p : Char → Bool) (l : List Char) :
    ((l.reverse.dropWhile p).reverse) <+: l := by
  have hs : l.reverse.dropWhile p <:+ l.reverse := List.dropWhile_suffix p
  have := List.reverse_prefix.mpr hs
  simpa using this

theorem stripAll_head_not (p : Char → Bool) (l : List Char) :
    ∀ c, (stripAll p l).head? = some c → p c = false := by
  intro c h
  have hpre : stripAll p l <+: l.dropWhile p := rstrip_isPrefix p _
  have hne : stripAll p l ≠ [] := by
    intro hz
    rw [hz] at h
    exact Option.noConfusion h
  have := isPrefix_head_eq hpre hne
  exact dropWhile_head_not p l c (by rw [this, h])

theorem stripAll_reverse_eq (p : Char → Bool) (l : List Char) :
    (stripAll p l).reverse = (l.dropWhile p).reverse.dropWhile p := by
  unfold stripAll
  rw [List.reverse_reverse]

theorem stripAll_last_not (p : Char → Bool) (l : List Char) :
    ∀ c, (stripAll p l).reverse.head? = some c → p c = false := by
  intro c h
  rw [stripAll_reverse_eq] at h
  exact dropWhile_head_not p _ c h

theorem stripAll_idem (p : Char → Bool) (l : List Char) :
    stripAll p (stripAll p l) = stripAll p l := by
  have h1 : (stripAll p l).dropWhile p = stripAll p l := by
    cases hd : stripAll p l with
    | nil => rfl
    | cons c rest =>
      have hc : p c = false := stripAll_head_not p l c (by rw [hd]; rfl)
      rw [List.dropWhile_cons_of_neg (by simp [hc])]
  show ((((stripAll p l).dropWhile p).reverse).dropWhile p).reverse
      = stripAll p l
  rw [h1, stripAll_reverse_eq, dropWhile_idem]
  rfl

theorem pyStrip_idem (l : List Char) : pyStrip (pyStrip l) = pyStrip l :=
  stripAll_idem pySpace l

theorem stripAll_eq_self (p : Char → Bool) (l : List Char)
    (hh : ∀ c, l.head? = some c → p c = false)
    (hl : ∀ c, l.reverse.head? = some c → p c = false) :
    stripAll p l = l := by
  have h1 : l.dropWhile p = l := by
    cases l with
    | nil => rfl
    | cons a rest =>
      have := hh a rfl
      rw [List.dropWhile_cons_of_neg (by simp [this])]
  have h2 : l.reverse.dropWhile p = l.reverse := by
    cases hr : l.reverse with
    | nil => rfl
    | cons a rest =>
      have := hl a (by rw [hr]; rfl)
      rw [List.dropWhile_cons_of_neg (by simp [this])]
  unfold stripAll
  rw [h1, h2, List.reverse_reverse]

/-! ## Clause segmenter: losslessness and clause shape (C2, C4) -/

theorem popAux_filter (text : List Char) : ∀ acc : List Char,
    ((popAux text acc).1.flatten ++ (popAux text acc).2).filter
        (fun c => !pySpace c)
      = (acc ++ text).filter (fun c => !pySpace c) := by
  induction text with
  | nil => intro acc; simp [popAux]
  | cons c rest ih =>
    intro acc
    by_cases h : isTerminalPunct c
    · have hstrip : (pyStrip (acc ++ [c])).filter (fun x => !pySpace x)
          = (acc ++ [c]).filter (fun x => !pySpace x) :=
        filter_not_stripAll pySpace (acc ++ [c])
      by_cases hcl : (pyStrip (acc ++ [c])).isEmpty
      · have hnil : pyStrip (acc ++ [c]) = [] := by
          simpa [List.isEmpty_iff] using hcl
        have hz : (acc ++ [c]).filter (fun x => !pySpace x) = [] := by
          rw [← hstrip, hnil]; rfl
        rw [List.filter_append] at hz
        have hz1 : acc.filter (fun x => !pySpace x) = [] :=
          (List.append_eq_nil.mp hz).1
        have hz2 : pySpace c = true := by
          have := (List.append_eq_nil.mp hz).2
          by_cases hc : pySpace c
          · exact hc
          · simp [List.filter_cons, hc] at this
        simp only [popAux, h, if_true, hcl]
        rw [ih []]
        simp [List.filter_append, List.filter_cons, hz1, hz2]
      · simp only [popAux, h, if_true, hcl, Bool.false_eq_true, if_false]
        rw [List.flatten_cons, List.append_assoc, List.filter_append,
          ih [], hstrip]
        cases hc : pySpace c <;>
          simp [List.filter_append, List.filter_cons, hc]
    · simp only [popAux, h, Bool.false_eq_true, if_false]
      rw [ih (acc ++ [c])]
      simp [List.filter_append]

theorem generateAux_filter (tokens : List (List Char)) :
    ∀ (buffer : List Char) (wc : Nat),
    ((generateAux tokens buffer wc).1.flatten).filter (fun c => !pySpace c)
      = (buffer ++ tokens.flatten).filter (fun c => !pySpace c) := by
  induction tokens with
  | nil =>
    intro buffer wc
    by_cases hb : (pyStrip buffer).isEmpty
    · have hnil : pyStrip buffer = [] := by simpa [List.isEmpty_iff] using hb
      have := filter_not_of_stripAll_nil pySpace buffer hnil
      simp [generateAux, hb, this]
    · have hs : (pyStrip buffer).filter (fun c => !pySpace c)
          = buffer.filter (fun c => !pySpace c) :=
        filter_not_stripAll pySpace buffer
      simp only [generateAux, hb, Bool.false_eq_true, if_false]
      simpa using hs
  | cons t ts ih =>
    intro buffer wc
    have hp := popAux_filter (buffer ++ t) []
    rw [List.filter_append, List.nil_append] at hp
    simp only [generateAux, pop_ready_clauses]
    rw [List.flatten_append, List.filter_append, ih, List.filter_append,
      ← List.append_assoc, hp, List.flatten_cons, ← List.filter_append,
      List.append_assoc]

theorem popAux_mem_shape (text : List Char) : ∀ acc : List Char,
    ∀ cl ∈ (popAux text acc).1, cl ≠ [] ∧ pyStrip cl = cl := by
  induction text with
  | nil => intro acc cl hm; simp [popAux] at hm
  | cons c rest ih =>
    intro acc cl hm
    by_cases h : isTerminalPunct c
    · simp only [popAux, h, if_true] at hm
      by_cases hcl : (pyStrip (acc ++ [c])).isEmpty
      · rw [if_pos hcl] at hm
        exact ih [] cl hm
      · rw [if_neg hcl] at hm
        rcases List.mem_cons.mp hm with hm | hm
        · subst hm
          refine ⟨?_, pyStrip_idem _⟩
          intro hz
          rw [hz] at hcl
          exact hcl rfl
        · exact ih [] cl hm
    · simp only [popAux, h, Bool.false_eq_true, if_false] at hm
      exact ih (acc ++ [c]) cl hm

theorem generateAux_mem_shape (tokens : List (List Char)) :
    ∀ (buffer : List Char) (wc : Nat),
    ∀ cl ∈ (generateAux tokens buffer wc).1, cl ≠ [] ∧ pyStrip cl = cl := by
  induction tokens with
  | nil =>
    intro buffer wc cl hm
    by_cases hb : (pyStrip buffer).isEmpty
    · simp [generateAux, hb] at hm
    · simp only [generateAux, hb, Bool.false_eq_true, if_false,
        List.mem_singleton] at hm
      subst hm
      refine ⟨?_, pyStrip_idem _⟩
      intro hz
      rw [hz] at hb
      exact hb rfl
  | cons t ts ih =>
    intro buffer wc cl hm
    simp only [generateAux, pop_ready_clauses, List.mem_append] at hm
    rcases hm with hm | hm
    · exact popAux_mem_shape (buffer ++ t) [] cl hm
    · exact ih _ _ cl hm

/-- Claim C2: the claim compares the trimmed concatenation of the emitted
clauses with the trimmed concatenation of the fragments.  Clause trimming
also removes whitespace strictly between two clauses of one fragment, so
the two trimmed concatenations differ on the single fragment `"a. b."`:
the clauses are `"a."` and `"b."`, whose concatenation `"a.b."` lost the
interior space. -/
theorem segmentation_trimmed_concat_counterexample :
    pyStrip ((generate_clauses ["a. b.".data]).1.flatten)
      ≠ pyStrip (["a. b.".data].flatten) := by
  decide

/-- Claim C2 (amended): segmentation is lossless up to whitespace: for every
fragment sequence, the concatenation of the emitted clauses agrees with the
concatenation of the fragments once all whitespace characters are removed
(segmentation never changes, reorders, or drops a non-whitespace
character). -/
theorem segmentation_lossless_modulo_whitespace (tokens : List (List Char)) :
    ((generate_clauses tokens).1.flatten).filter (fun c => !pySpace c)
      = (tokens.flatten).filter (fun c => !pySpace c) := by
  unfold generate_clauses
  rw [generateAux_filter]
  rfl

/-- Claim C3: on the fragments `["Hel", "lo. How", " are", " you?"]` the
tracked word count does not end at 4: `self.word_count` is recomputed from
the unsegmented buffer, which no longer contains the words of the already
popped clause `"Hello."`, so it ends at 3. -/
theorem segmentation_example_wordcount_counterexample :
    (generate_clauses
        ["Hel".data, "lo. How".data, " are".data, " you?".data]).2 ≠ 4 := by
  decide

/-- Claim C3 (amended): the fragments `["Hel", "lo. How", " are", " you?"]`
segment into exactly the clauses `["Hello.", "How are you?"]`, and the word
count tracked after the last fragment is 3 (the count covers only the
current unsegmented buffer, not the fragments already emitted as
clauses). -/
theorem segmentation_example_amended :
    generate_clauses ["Hel".data, "lo. How".data, " are".data, " you?".data]
      = (["Hello.".data, "How are you?".data], 3) := by
  decide

/-- Claim C4: the segmenter can emit a clause consisting solely of terminal
punctuation: on the single fragment `"Hi.."` it emits the clauses `"Hi."`
and `"."`, and the latter consists solely of terminal punctuation.  (Only
the thinking relay filters such cues out, via its meaningful-cue check; the
segmenter itself does not.) -/
theorem clause_punctuation_only_counterexample :
    ".".data ∈ (generate_clauses ["Hi..".data]).1
      ∧ ".".data.all isTerminalPunct = true ∧ ".".data ≠ [] := by
  refine ⟨by decide, by decide, by decide⟩

/-- Claim C4 (amended): no clause emitted by the segmenter (including the
end-of-stream flush) is empty after trimming — every emitted clause is
non-empty and already trimmed — but a clause may consist solely of terminal
punctuation. -/
theorem clauses_nonempty_and_trimmed (tokens : List (List Char))
    (cl : List Char) (hm : cl ∈ (generate_clauses tokens).1) :
    cl ≠ [] ∧ pyStrip cl = cl :=
  generateAux_mem_shape tokens [] 0 cl hm

/-- Witness for the amended C4 theorem at a concrete input. -/
theorem clauses_nonempty_and_trimmed_witness :
    "Hi.".data ≠ [] ∧ pyStrip "Hi.".data = "Hi.".data :=
  clauses_nonempty_and_trimmed ["Hi..".data] "Hi.".data (by decide)

/-! ## Confidence resolver (C5) -/

theorem confBehaviorFull_isSome_iff (k : List Char) :
    (confBehaviorFull k).isSome = true
      ↔ k = "low".data ∨ k = "medium".data ∨ k = "high".data := by
  unfold confBehaviorFull
  split
  · simp_all
  · split
    · simp_all
    · split
      · simp_all
      · simp_all

/-- Claim C5: the resolver does not satisfy the reference definition as
stated.  The hint `"High"` does not match any tier verbatim, so the
reference definition falls back to the word-count heuristic and yields
`"low"` at word count 10; the code, however, strips and lowercases the
hint first and returns `"high"`. -/
theorem resolve_confidence_counterexample :
    resolve_confidence (some "High".data) 10
      ≠ resolve_confidence_claimed (some "High".data) 10 := by
  decide

/-- Claim C5 (amended): a present hint wins whenever its stripped lowercase
form is a known tier, and the returned value is that canonical lowercase
form (so a hint that is exactly a tier name is returned verbatim);
otherwise the word-count thresholds apply: below 25 low, below 60 medium,
else high — in particular resolve(None,10)=low, resolve(None,40)=medium,
resolve(None,100)=high. -/
theorem resolve_confidence_amended :
    (∀ h wc, (confBehaviorFull h).isSome = true →
      resolve_confidence (some h) wc = h)
    ∧ (∀ h wc, (confBehaviorFull (pyLower (pyStrip h))).isSome = true →
        h.isEmpty = false →
        resolve_confidence (some h) wc = pyLower (pyStrip h))
    ∧ (∀ h wc, (confBehaviorFull (pyLower (pyStrip h))).isSome = false →
        resolve_confidence (some h) wc = estimate_confidence_from_words wc)
    ∧ (∀ wc, resolve_confidence none wc = estimate_confidence_from_words wc)
    ∧ resolve_confidence none 10 = "low".data
    ∧ resolve_confidence none 40 = "medium".data
    ∧ resolve_confidence none 100 = "high".data := by
  refine ⟨?_, ?_, ?_, fun _ => rfl, by decide, by decide, by decide⟩
  · intro h wc hk
    rcases (confBehaviorFull_isSome_iff h).mp hk with rfl | rfl | rfl <;> rfl
  · intro h wc hk he
    simp only [resolve_confidence, he, Bool.false_eq_true, if_false, hk,
      if_true]
  · intro h wc hk
    by_cases he : h.isEmpty
    · simp only [resolve_confidence, he, if_true]
    · simp only [resolve_confidence, he, Bool.false_eq_true, if_false, hk]

/-- Witness for the amended C5 theorem at concrete inputs. -/
theorem resolve_confidence_amended_witness :
    resolve_confidence (some "high".data) 0 = "high".data
    ∧ resolve_confidence (some " HIGH ".data) 10 = "high".data := by
  constructor
  · exact resolve_confidence_amended.1 "high".data 0 (by decide)
  · have := resolve_confidence_amended.2.1 " HIGH ".data 10 (by decide)
      (by decide)
    simpa using this

/-! ## DirectAnswer path (C6, C10) -/

theorem head?_append_left {l r : List Char} (h : l ≠ []) :
    (l ++ r).head? = l.head? := by
  cases l with
  | nil => exact absurd rfl h
  | cons a l' => rfl

theorem pyStrip_concat_eq_self (pfx ans : List Char)
    (hp : ∀ c, pfx.head? = some c → pySpace c = false)
    (hpne : pfx ≠ []) (hane : ans ≠ [])
    (ha : ∀ c, ans.reverse.head? = some c → pySpace c = false) :
    pyStrip (pfx ++ ' ' :: ans) = pfx ++ ' ' :: ans := by
  apply stripAll_eq_self
  · intro c hc
    rw [head?_append_left hpne] at hc
    exact hp c hc
  · intro c hc
    rw [List.reverse_append,
      show (' ' :: ans).reverse = ans.reverse ++ [' '] by simp,
      List.append_assoc,
      head?_append_left (by simpa using hane)] at hc
    exact ha c hc

theorem get_confidence_behavior_cases (c : List Char) :
    get_confidence_behavior c
        = ("I'm not entirely sure, but".data, "slight head shake".data)
    ∨ get_confidence_behavior c
        = ("Let me think".data, "look straight".data)
    ∨ get_confidence_behavior c
        = ("I'm confident that".data, "nod head".data) := by
  by_cases h1 : c = "low".data
  · subst h1; left; rfl
  · by_cases h2 : c = "medium".data
    · subst h2; right; left; rfl
    · by_cases h3 : c = "high".data
      · subst h3; right; right; rfl
      · right; left
        have hs : (confBehaviorFull c).isSome = false := by
          unfold confBehaviorFull
          simp [h1, h2, h3]
        simp only [get_confidence_behavior, hs, Bool.false_eq_true,
          if_false]
        rfl

theorem get_confidence_behavior_head (c : List Char) :
    ∀ ch, (get_confidence_behavior c).1.head? = some ch →
      pySpace ch = false := by
  intro ch h
  rcases get_confidence_behavior_cases c with hc | hc | hc <;>
    · rw [hc] at h
      cases h
      rfl

theorem get_confidence_behavior_fst_ne (c : List Char) :
    (get_confidence_behavior c).1 ≠ [] := by
  rcases get_confidence_behavior_cases c with hc | hc | hc <;> simp [hc]

theorem respond_directly_spoken (aF hint : Option (List Char))
    (hasClient : Bool) :
    (respond_directly aF hint hasClient).spoken
      = (get_confidence_behavior
            (respond_directly aF hint hasClient).confidence).1
        ++ ' ' :: (if (pyStrip (aF.getD [])).isEmpty then APOLOGY
            else pyStrip (aF.getD [])) := by
  have hane : (if (pyStrip (aF.getD [])).isEmpty then APOLOGY
      else pyStrip (aF.getD [])) ≠ [] := by
    by_cases hb : (pyStrip (aF.getD [])).isEmpty
    · simp only [hb, if_true]; decide
    · simp only [hb, Bool.false_eq_true, if_false]
      intro hz
      rw [hz] at hb
      exact hb rfl
  have hlast : ∀ c, (if (pyStrip (aF.getD [])).isEmpty then APOLOGY
      else pyStrip (aF.getD [])).reverse.head? = some c →
      pySpace c = false := by
    by_cases hb : (pyStrip (aF.getD [])).isEmpty
    · simp only [hb, if_true]
      intro c hc
      rw [show APOLOGY.reverse.head? = some '.' from rfl] at hc
      cases hc
      rfl
    · simp only [hb, Bool.false_eq_true, if_false]
      intro c hc
      exact stripAll_last_not pySpace (aF.getD []) c hc
  exact pyStrip_concat_eq_self _ _
    (get_confidence_behavior_head _) (get_confidence_behavior_fst_ne _)
    hane hlast

/-- Claim C6: on the DirectAnswer path, for every turn plan: confidence is
the hint when the hint is a known tier and `"medium"` otherwise (absent or
unknown); exactly one speak actuation call is issued and its text is the
resolved tier's verbal prefix followed by the (apology-defaulted) direct
answer, so it begins with the tier's verbal prefix — in particular with the
`"high"` prefix for hint `"high"`; and no thinking output events occur. -/
theorem direct_answer_path_spec :
    (∀ aF hint, (speakTexts (respond_directly aF hint true)).length = 1)
    ∧ (∀ aF hint, ∀ e ∈ (respond_directly aF hint true).outputs,
        isThinkingEv e = false)
    ∧ (∀ aF h, (confBehaviorFull h).isSome = true →
        (respond_directly aF (some h) true).confidence = h)
    ∧ (∀ aF h, (confBehaviorFull h).isSome = false →
        (respond_directly aF (some h) true).confidence = "medium".data)
    ∧ (∀ aF, (respond_directly aF none true).confidence = "medium".data)
    ∧ (∀ aF hint, speakTexts (respond_directly aF hint true)
        = [(respond_directly aF hint true).spoken])
    ∧ (∀ aF hint,
        (get_confidence_behavior
            (respond_directly aF hint true).confidence).1
          <+: (respond_directly aF hint true).spoken)
    ∧ ("I'm confident that".data <+:
        (respond_directly (some "Paris is the capital.".data)
          (some "high".data) true).spoken) := by
  refine ⟨fun aF hint => rfl, ?_, ?_, ?_, fun aF => rfl, fun aF hint => rfl,
    ?_, by decide⟩
  · intro aF hint e he
    simp only [respond_directly, List.mem_append, List.mem_cons,
      List.mem_singleton, if_true, List.not_mem_nil, or_false] at he
    rcases he with (rfl | rfl) | rfl <;> rfl
  · intro aF h hk
    simp [respond_directly, hk]
  · intro aF h hk
    simp [respond_directly, hk]
  · intro aF hint
    exact ⟨_, (respond_directly_spoken aF hint true).symm⟩

/-- Witness for the C6 theorem at a concrete plan. -/
theorem direct_answer_path_spec_witness :
    (respond_directly (some "Paris is the capital.".data)
        (some "high".data) true).confidence = "high".data :=
  direct_answer_path_spec.2.2.1 (some "Paris is the capital.".data)
    "high".data (by decide)

/-- Claim C10: on the DirectAnswer path, when the plan's answer field is
missing, `None`, or blank after trimming, the orchestrator substitutes the
fixed built-in apology sentence and delivers it through the normal
confidence-prefix path: the spoken text is the resolved tier's prefix
followed by the apology, and exactly one speak call is issued. -/
theorem direct_answer_blank_gets_apology (aF hint : Option (List Char))
    (hblank : pyStrip (aF.getD []) = []) :
    (respond_directly aF hint true).spoken
      = (get_confidence_behavior
            (respond_directly aF hint true).confidence).1 ++ ' ' :: APOLOGY
    ∧ (speakTexts (respond_directly aF hint true)).length = 1
    ∧ APOLOGY <:+ (respond_directly aF hint true).spoken := by
  have hs := respond_directly_spoken aF hint true
  rw [hblank] at hs
  simp only [List.isEmpty_nil, if_true] at hs
  refine ⟨hs, rfl, ?_⟩
  rw [hs]
  exact ⟨(get_confidence_behavior
      (respond_directly aF hint true).confidence).1 ++ [' '], by simp⟩

/-- Witness for the C10 theorem at a concrete plan with a missing answer. -/
theorem direct_answer_blank_gets_apology_witness :
    (respond_directly none none true).spoken
      = (get_confidence_behavior
            (respond_directly none none true).confidence).1 ++ ' ' :: APOLOGY
    ∧ (speakTexts (respond_directly none none true)).length = 1
    ∧ APOLOGY <:+ (respond_directly none none true).spoken :=
  direct_answer_blank_gets_apology none none rfl

/-! ## Decision service parsing (C9) -/

/-- Claim C9: the claim's iff fails.  The body `"42"` is valid JSON but not
a JSON object; `_parse_json` nevertheless succeeds and returns the number —
it never checks the shape of the parsed value, so no parse error is raised
on a non-object body. -/
theorem decide_parse_object_counterexample :
    (parse_json "42".data).isSome = true
    ∧ optIsObj (jsonLoads (stripFence "42".data)) = false :=
  ⟨rfl, rfl⟩

/-- Claim C9 (amended): `decide` raises a parse error iff the response
body, after the fence-stripping performed by `_parse_json`, is not valid
JSON of any shape; when the stripped body is valid JSON the parsed value is
returned unchanged and no error is raised, even when that value is not an
object.  Concretely: the bare number `42` parses, a fenced object parses to
the object, and a non-JSON body is a parse error. -/
theorem parse_json_amended :
    (∀ text, (parse_json text).isSome
      = (jsonLoads (stripFence text)).isSome)
    ∧ (∀ text v, jsonLoads (stripFence text) = some v →
        parse_json text = some v)
    ∧ parse_json "42".data = some (Json.num "42".data)
    ∧ parse_json "```json\n\x7b\"need_thinking\": true\x7d\n```".data
        = some (Json.obj [("need_thinking".data, Json.bool true)])
    ∧ parse_json "not valid".data = none :=
  ⟨fun _ => rfl, fun _ _ h => h, rfl, rfl, rfl⟩

/-- Witness for the amended C9 theorem at a concrete input. -/
theorem parse_json_amended_witness :
    parse_json "[1]".data = some (Json.arr [Json.num "1".data]) :=
  parse_json_amended.2.1 "[1]".data (Json.arr [Json.num "1".data]) rfl

/-! ## Thinking relay bounds and barrier (C7, C8) -/

theorem fallbackLoop_emitted_eq (deadline : Nat) (fbDelay : Nat → Nat) :
    ∀ now emitted fbIdx,
    (fallbackLoop deadline fbDelay now emitted fbIdx).emitted
      = emitted
        + (fallbackLoop deadline fbDelay now emitted fbIdx).emits.length := by
  intro now emitted fbIdx
  induction now, emitted, fbIdx using fallbackLoop.induct deadline fbDelay with
  | case1 now emitted fbIdx hcond t1 hbreak =>
    rw [fallbackLoop.eq_def, dif_pos hcond, if_pos hbreak]
    rfl
  | case2 now emitted fbIdx hcond t1 hbreak ih =>
    rw [fallbackLoop.eq_def, dif_pos hcond, if_neg hbreak]
    have ht : t1 = now + fbDelay fbIdx := rfl
    rw [ht] at ih
    simp only [List.length_cons]
    omega
  | case3 now emitted fbIdx hcond =>
    rw [fallbackLoop.eq_def, dif_neg hcond]
    simp

theorem fallbackLoop_emitted_le (deadline : Nat) (fbDelay : Nat → Nat) :
    ∀ now emitted fbIdx, emitted ≤ MAX_THINKING_CUES →
    (fallbackLoop deadline fbDelay now emitted fbIdx).emitted
      ≤ MAX_THINKING_CUES := by
  intro now emitted fbIdx
  induction now, emitted, fbIdx using fallbackLoop.induct deadline fbDelay with
  | case1 now emitted fbIdx hcond t1 hbreak =>
    intro _
    rw [fallbackLoop.eq_def, dif_pos hcond, if_pos hbreak]
    exact hcond.2
  | case2 now emitted fbIdx hcond t1 hbreak ih =>
    intro _
    rw [fallbackLoop.eq_def, dif_pos hcond, if_neg hbreak]
    exact ih (by omega)
  | case3 now emitted fbIdx hcond =>
    intro h
    rw [fallbackLoop.eq_def, dif_neg hcond]
    exact h

theorem fallbackLoop_emits_lt (deadline : Nat) (fbDelay : Nat → Nat) :
    ∀ now emitted fbIdx,
    ∀ p ∈ (fallbackLoop deadline fbDelay now emitted fbIdx).emits,
      p.1 < deadline := by
  intro now emitted fbIdx
  induction now, emitted, fbIdx using fallbackLoop.induct deadline fbDelay with
  | case1 now emitted fbIdx hcond t1 hbreak =>
    rw [fallbackLoop.eq_def, dif_pos hcond, if_pos hbreak]
    intro p hp
    simp only [List.mem_singleton] at hp
    subst hp
    exact hcond.1
  | case2 now emitted fbIdx hcond t1 hbreak ih =>
    rw [fallbackLoop.eq_def, dif_pos hcond, if_neg hbreak]
    intro p hp
    rcases List.mem_cons.mp hp with rfl | hp
    · exact hcond.1
    · exact ih p hp
  | case3 now emitted fbIdx hcond =>
    rw [fallbackLoop.eq_def, dif_neg hcond]
    intro p hp
    simp at hp

theorem fallbackLoop_exit_lt (deadline : Nat) :
    ∀ now emitted fbIdx, now < deadline + THINKING_PAUSE_MS →
    (fallbackLoop deadline (fun _ => 0) now emitted fbIdx).exitTime
      < deadline + THINKING_PAUSE_MS := by
  intro now emitted fbIdx
  induction now, emitted, fbIdx
    using fallbackLoop.induct deadline (fun _ => 0) with
  | case1 now emitted fbIdx hcond t1 hbreak =>
    intro _
    rw [fallbackLoop.eq_def, dif_pos hcond, if_pos hbreak]
    have h1 : now < deadline := hcond.1
    show now + 0 < deadline + THINKING_PAUSE_MS
    omega
  | case2 now emitted fbIdx hcond t1 hbreak ih =>
    intro _
    rw [fallbackLoop.eq_def, dif_pos hcond, if_neg hbreak]
    have h1 : now < deadline := hcond.1
    exact ih (by omega)
  | case3 now emitted fbIdx hcond =>
    intro h
    rw [fallbackLoop.eq_def, dif_neg hcond]
    exact h

theorem relayLoop_emitted_eq (deadline : Nat) (fbDelay : Nat → Nat)
    (endAt : Nat) :
    ∀ (items : List StreamItem) (now emitted : Nat),
    (relayLoop deadline fbDelay endAt items now emitted).emitted
      = emitted
        + (relayLoop deadline fbDelay endAt items now emitted).emits.length := by
  intro items
  induction items with
  | nil =>
    intro now emitted
    exact fallbackLoop_emitted_eq deadline fbDelay _ emitted 0
  | cons it rest ih =>
    intro now emitted
    cases it with
    | err a => simp [relayLoop]
    | cue a text d =>
      simp only [relayLoop]
      by_cases h1 : max now a ≥ deadline ∨ emitted ≥ MAX_THINKING_CUES
      · rw [if_pos h1]; rfl
      · rw [if_neg h1]
        by_cases h2 : isMeaningfulThinkingCue text = false
        · rw [if_pos h2]; exact ih _ _
        · rw [if_neg h2]
          by_cases h3 : max now a + d ≥ deadline
              ∨ emitted + 1 ≥ MAX_THINKING_CUES
          · rw [if_pos h3]; rfl
          · rw [if_neg h3]
            have := ih (max now a + d + THINKING_PAUSE_MS) (emitted + 1)
            simp only [List.length_cons]
            omega

theorem relayLoop_emitted_le (deadline : Nat) (fbDelay : Nat → Nat)
    (endAt : Nat) :
    ∀ (items : List StreamItem) (now emitted : Nat),
    emitted ≤ MAX_THINKING_CUES →
    (relayLoop deadline fbDelay endAt items now emitted).emitted
      ≤ MAX_THINKING_CUES := by
  intro items
  induction items with
  | nil =>
    intro now emitted h
    exact fallbackLoop_emitted_le deadline fbDelay _ emitted 0 h
  | cons it rest ih =>
    intro now emitted h
    cases it with
    | err a => simpa [relayLoop] using h
    | cue a text d =>
      simp only [relayLoop]
      by_cases h1 : max now a ≥ deadline ∨ emitted ≥ MAX_THINKING_CUES
      · rw [if_pos h1]; exact h
      · rw [if_neg h1]
        by_cases h2 : isMeaningfulThinkingCue text = false
        · rw [if_pos h2]; exact ih _ _ h
        · rw [if_neg h2]
          push_neg at h1
          by_cases h3 : max now a + d ≥ deadline
              ∨ emitted + 1 ≥ MAX_THINKING_CUES
          · rw [if_pos h3]
            show emitted + 1 ≤ MAX_THINKING_CUES
            omega
          · rw [if_neg h3]
            exact ih _ _ (by omega)

theorem relayLoop_emits_lt (deadline : Nat) (fbDelay : Nat → Nat)
    (endAt : Nat) :
    ∀ (items : List StreamItem) (now emitted : Nat),
    ∀ p ∈ (relayLoop deadline fbDelay endAt items now emitted).emits,
      p.1 < deadline := by
  intro items
  induction items with
  | nil =>
    intro now emitted p hp
    exact fallbackLoop_emits_lt deadline fbDelay _ emitted 0 p hp
  | cons it rest ih =>
    intro now emitted p hp
    cases it with
    | err a => simp [relayLoop] at hp
    | cue a text d =>
      simp only [relayLoop] at hp
      by_cases h1 : max now a ≥ deadline ∨ emitted ≥ MAX_THINKING_CUES
      · rw [if_pos h1] at hp; simp at hp
      · rw [if_neg h1] at hp
        push_neg at h1
        by_cases h2 : isMeaningfulThinkingCue text = false
        · rw [if_pos h2] at hp; exact ih _ _ p hp
        · rw [if_neg h2] at hp
          by_cases h3 : max now a + d ≥ deadline
              ∨ emitted + 1 ≥ MAX_THINKING_CUES
          · rw [if_pos h3] at hp
            simp only [List.mem_singleton] at hp
            subst hp
            exact h1.1
          · rw [if_neg h3] at hp
            rcases List.mem_cons.mp hp with rfl | hp
            · exact h1.1
            · exact ih _ _ p hp

theorem relayLoop_exit_lt (deadline : Nat) :
    ∀ (items : List StreamItem),
    (∀ a text d, StreamItem.cue a text d ∈ items → a = 0 ∧ d = 0) →
    (∀ a, StreamItem.err a ∈ items → a = 0) →
    ∀ now emitted, now < deadline + THINKING_PAUSE_MS →
    (relayLoop deadline (fun _ => 0) 0 items now emitted).exitTime
      < deadline + THINKING_PAUSE_MS := by
  intro items
  induction items with
  | nil =>
    intro _ _ now emitted h
    have : max now 0 = now := by omega
    simp only [relayLoop, this]
    exact fallbackLoop_exit_lt deadline now emitted 0 h
  | cons it rest ih =>
    intro hc he now emitted h
    cases it with
    | err a =>
      have ha : a = 0 := he a (List.mem_cons_self _ _)
      subst ha
      simp only [relayLoop]
      show max now 0 < deadline + THINKING_PAUSE_MS
      omega
    | cue a text d =>
      obtain ⟨ha, hd⟩ := hc a text d (List.mem_cons_self _ _)
      subst ha; subst hd
      have hmax : max now 0 = now := by omega
      have hc' : ∀ a text d, StreamItem.cue a text d ∈ rest →
          a = 0 ∧ d = 0 := fun a t d hm => hc a t d (List.mem_cons_of_mem _ hm)
      have he' : ∀ a, StreamItem.err a ∈ rest → a = 0 :=
        fun a hm => he a (List.mem_cons_of_mem _ hm)
      simp only [relayLoop, hmax]
      by_cases h1 : now ≥ deadline ∨ emitted ≥ MAX_THINKING_CUES
      · rw [if_pos h1]; exact h
      · rw [if_neg h1]
        push_neg at h1
        by_cases h2 : isMeaningfulThinkingCue text = false
        · rw [if_pos h2]; exact ih hc' he' now emitted h
        · rw [if_neg h2]
          by_cases h3 : now + 0 ≥ deadline ∨ emitted + 1 ≥ MAX_THINKING_CUES
          · rw [if_pos h3]
            show now + 0 < deadline + THINKING_PAUSE_MS
            omega
          · rw [if_neg h3]
            refine ih hc' he' _ _ ?_
            have : now < deadline := h1.1
            omega

/-- Claim C7: the unconditional time bound fails.  With the stream's first
cue arriving 20 seconds after the relay starts, the relay stays blocked on
the `async for` until that arrival and only then breaks, so it runs until
20000 ms — past the 10000 ms deadline plus the 500 ms pause.  (No cue is
emitted during that overrun.) -/
theorem thinking_relay_deadline_counterexample :
    ¬ ((relay_thinking 0 [StreamItem.cue 20000 "Still thinking.".data 0]
          20000 (fun _ => 0)).exitTime
        ≤ 0 + THINKING_DURATION_MS + THINKING_PAUSE_MS) := by
  decide

/-- Claim C7 (amended): the thinking relay never emits more cues (model
cues plus fallback fillers) than `MAX_THINKING_CUES`, and every cue is
emitted strictly before the wall-clock deadline.  The deadline-plus-one-
pause bound on the total running time holds only when the stream never
blocks (every item available immediately and emission instantaneous); a
delayed stream item can keep the relay alive arbitrarily long past the
deadline, although it emits nothing while blocked. -/
theorem thinking_relay_bounds :
    (∀ st items endAt fbDelay,
      (relay_thinking st items endAt fbDelay).emits.length
        ≤ MAX_THINKING_CUES)
    ∧ (∀ st items endAt fbDelay,
        ∀ p ∈ (relay_thinking st items endAt fbDelay).emits,
          p.1 < st + THINKING_DURATION_MS)
    ∧ (∀ st items,
        (∀ a text d, StreamItem.cue a text d ∈ items → a = 0 ∧ d = 0) →
        (∀ a, StreamItem.err a ∈ items → a = 0) →
        (relay_thinking st items 0 (fun _ => 0)).exitTime
          ≤ st + THINKING_DURATION_MS + THINKING_PAUSE_MS) := by
  refine ⟨?_, ?_, ?_⟩
  · intro st items endAt fbDelay
    have h1 := relayLoop_emitted_eq (st + THINKING_DURATION_MS) fbDelay
      endAt items st 0
    have h2 := relayLoop_emitted_le (st + THINKING_DURATION_MS) fbDelay
      endAt items st 0 (by decide)
    unfold relay_thinking
    omega
  · intro st items endAt fbDelay p hp
    exact relayLoop_emits_lt (st + THINKING_DURATION_MS) fbDelay
      endAt items st 0 p hp
  · intro st items hc he
    have hlt : st < st + THINKING_DURATION_MS + THINKING_PAUSE_MS := by
      have : (0 : Nat) < THINKING_DURATION_MS + THINKING_PAUSE_MS := by
        decide
      omega
    have := relayLoop_exit_lt (st + THINKING_DURATION_MS) items hc he st 0
      (by omega)
    unfold relay_thinking
    omega

/-- Witness for the amended C7 theorem at a concrete never-blocking
stream. -/
theorem thinking_relay_bounds_witness :
    (relay_thinking 3 [StreamItem.cue 0 "Okay.".data 0] 0
        (fun _ => 0)).exitTime
      ≤ 3 + THINKING_DURATION_MS + THINKING_PAUSE_MS := by
  apply thinking_relay_bounds.2.2
  · intro a text d hm
    simp only [List.mem_singleton] at hm
    injection hm with h1 h2 h3
    exact ⟨h1, h3⟩
  · intro a hm
    simp at hm

/-- Claim C8: on every completion path of the thinking relay — deadline
reached, cap reached, stream end (after any fallback filling), and a
failure re-raised from the stream — the one-shot completion barrier is
signaled exactly once, as the last action before the relay exits, so the
answer relay's wait on the barrier cannot block forever. -/
theorem thinking_barrier_exactly_once (st : Nat) (items : List StreamItem)
    (endAt : Nat) (fbDelay : Nat → Nat) :
    (relay_trace st items endAt fbDelay).countP isBarrierAct = 1
    ∧ (relay_trace st items endAt fbDelay).getLast?
        = some (RelayAct.signalBarrier
            (relay_thinking st items endAt fbDelay).exitTime) := by
  constructor
  · unfold relay_trace
    rw [List.countP_append, List.countP_map]
    simp [isBarrierAct, Function.comp]
  · unfold relay_trace
    simp

/-! ## Two-relay ordering (C1) -/

theorem answerAfterBarrier_cons (e : OrchEv) (tr : List OrchEv)
    (h : answerAfterBarrier tr)
    (hb : isAnswerEv e = true → OrchEv.barrier ∈ tr) :
    answerAfterBarrier (e :: tr) := by
  intro l1 f l2 heq hf
  cases l1 with
  | nil =>
    rw [List.nil_append] at heq
    injection heq with he ht
    subst he
    subst ht
    exact hb hf
  | cons a l1' =>
    rw [List.cons_append] at heq
    injection heq with he ht
    exact h l1' f l2 ht hf

theorem orchInv_init (tcues acues : List (List Char)) :
    OrchInv (orchInit tcues acues) := by
  refine ⟨?_, ?_, ?_⟩
  · intro h
    exact absurd h (by simp [orchInit])
  · intro h
    exact absurd h (by simp [orchInit, ansStarted])
  · intro l1 e l2 heq hf
    exact absurd heq (by simp [orchInit])

theorem orchStep_inv (hint : Option (List Char)) (wc : Nat)
    (c d : OrchConf) (hs : OrchStep hint wc c d) (hi : OrchInv c) :
    OrchInv d := by
  obtain ⟨h1, h2, h3⟩ := hi
  cases hs with
  | thinkEmit cu cs an done trace =>
    exact ⟨fun hd => List.mem_cons_of_mem _ (h1 hd), fun ha => h2 ha,
      answerAfterBarrier_cons _ _ h3 (fun hf => nomatch hf)⟩
  | thinkSkip cu cs an done trace =>
    exact ⟨h1, h2, h3⟩
  | thinkFiller f cs an done trace hf =>
    exact ⟨fun hd => List.mem_cons_of_mem _ (h1 hd), fun ha => h2 ha,
      answerAfterBarrier_cons _ _ h3 (fun hff => nomatch hff)⟩
  | thinkBreak cs an done trace =>
    exact ⟨h1, h2, h3⟩
  | thinkSignal an done trace =>
    exact ⟨fun _ => List.mem_cons_self _ _, fun _ => rfl,
      answerAfterBarrier_cons _ _ h3 (fun hff => nomatch hff)⟩
  | ansFirstArrive cu cs tk done trace =>
    exact ⟨h1, fun ha => absurd ha (by simp [ansStarted]), h3⟩
  | ansZeroClauses tk done trace =>
    exact ⟨h1, fun ha => absurd ha (by simp [ansStarted]), h3⟩
  | ansAnnounce cu cs tk trace =>
    have hbar : OrchEv.barrier ∈ trace := h1 rfl
    refine ⟨fun _ => List.mem_cons_of_mem _ (List.mem_cons_of_mem _ hbar),
      fun _ => rfl, ?_⟩
    exact answerAfterBarrier_cons _ _
      (answerAfterBarrier_cons _ _ h3 (fun _ => hbar))
      (fun _ => List.mem_cons_of_mem _ hbar)
  | ansTailEmit pfx gest cu col cs tk done trace =>
    have hdone : done = true := h2 rfl
    have hbar : OrchEv.barrier ∈ trace := h1 hdone
    exact ⟨fun hd => List.mem_cons_of_mem _ (h1 hd), fun _ => hdone,
      answerAfterBarrier_cons _ _ h3 (fun _ => hbar)⟩
  | ansFinish pfx gest col tk done trace =>
    have hdone : done = true := h2 rfl
    have hbar : OrchEv.barrier ∈ trace := h1 hdone
    refine ⟨?_, fun ha => absurd ha (by simp [ansStarted]), ?_⟩
    · intro _
      exact List.mem_append_right _ (List.mem_cons_of_mem _ hbar)
    · by_cases hg : gest.isEmpty
      · simp only [hg, if_true, List.nil_append]
        exact answerAfterBarrier_cons _ _ h3 (fun _ => hbar)
      · simp only [hg, Bool.false_eq_true, if_false, List.cons_append,
          List.nil_append]
        exact answerAfterBarrier_cons _ _
          (answerAfterBarrier_cons _ _ h3 (fun _ => hbar))
          (fun _ => List.mem_cons_of_mem _ hbar)

theorem orchReach_inv (hint : Option (List Char)) (wc : Nat)
    (tcues acues : List (List Char)) (c : OrchConf)
    (h : OrchReach hint wc (orchInit tcues acues) c) : OrchInv c := by
  induction h with
  | refl => exact orchInv_init tcues acues
  | tail hab hbc ih => exact orchStep_inv hint wc _ _ hbc ih

/-- Claim C1: in every interleaving of the ThinkingAndAnswering path — in
particular in runs where the answer stream's first clause arrives before
the thinking stream has finished — every output event of the answer relay
(its confidence announcement, each clause print, the final actuation send,
and the closing gesture) occurs strictly after the thinking relay has
signaled the one-shot completion barrier: in every reachable trace, a
barrier signal lies strictly earlier in time than any answer event. -/
theorem answer_first_after_barrier (hint : Option (List Char)) (wc : Nat)
    (tcues acues : List (List Char)) (c : OrchConf)
    (h : OrchReach hint wc (orchInit tcues acues) c)
    (l1 : List OrchEv) (e : OrchEv) (l2 : List OrchEv)
    (hdec : c.trace = l1 ++ e :: l2) (he : isAnswerEv e = true) :
    OrchEv.barrier ∈ l2 :=
  (orchReach_inv hint wc tcues acues c h).2.2 l1 e l2 hdec he

/-- Witness for the C1 theorem: a concrete schedule in which the answer
stream's first clause is already fetched while the thinking relay runs,
reaching a configuration whose announce event is preceded by the barrier
signal. -/
theorem answer_first_after_barrier_witness :
    OrchEv.barrier ∈ ([OrchEv.barrier] : List OrchEv) := by
  have s1 : OrchStep (some "high".data) 30
      (orchInit [] ["Paris.".data])
      ⟨.finalize, .fetching ["Paris.".data], false, []⟩ :=
    OrchStep.thinkBreak [] (.fetching ["Paris.".data]) false []
  have s2 : OrchStep (some "high".data) 30
      ⟨.finalize, .fetching ["Paris.".data], false, []⟩
      ⟨.exited, .fetching ["Paris.".data], true, [.barrier]⟩ :=
    OrchStep.thinkSignal (.fetching ["Paris.".data]) false []
  have s3 : OrchStep (some "high".data) 30
      ⟨.exited, .fetching ["Paris.".data], true, [.barrier]⟩
      ⟨.exited, .waiting "Paris.".data [], true, [.barrier]⟩ :=
    OrchStep.ansFirstArrive "Paris.".data [] .exited true [.barrier]
  have s4 := @OrchStep.ansAnnounce (some "high".data) 30
    "Paris.".data [] ThinkSt.exited [OrchEv.barrier]
  have hreach : OrchReach (some "high".data) 30
      (orchInit [] ["Paris.".data])
      ⟨.exited, .streamingTail (get_confidence_behavior
          (resolve_confidence (some "high".data) 30)).1
          (get_confidence_behavior (resolve_confidence (some "high".data)
            30)).2 ["Paris.".data] [],
        true,
        [.answerOut (fullClause (get_confidence_behavior
            (resolve_confidence (some "high".data) 30)).1 "Paris.".data),
          .announce (resolve_confidence (some "high".data) 30)
            (get_confidence_behavior (resolve_confidence (some "high".data)
              30)).2,
          .barrier]⟩ :=
    Relation.ReflTransGen.tail (Relation.ReflTransGen.tail
      (Relation.ReflTransGen.tail (Relation.ReflTransGen.tail
        Relation.ReflTransGen.refl s1) s2) s3) s4
  exact answer_first_after_barrier (some "high".data) 30 [] ["Paris.".data]
    _ hreach
    [OrchEv.answerOut (fullClause (get_confidence_behavior
        (resolve_confidence (some "high".data) 30)).1 "Paris.".data)]
    (OrchEv.announce (resolve_confidence (some "high".data) 30)
      (get_confidence_behavior (resolve_confidence (some "high".data)
        30)).2)
    [OrchEv.barrier] rfl rfl

end Robo
